import Mathlib

/-!
Shallow embedding of the Termux-Agent perception-action loop (src/index.js).

Strings from the JavaScript source are modelled as `List Char`; the helper
functions `jsTrim`, `jsSplit`, `jsJoin`, `jsToUpper` model the corresponding
JavaScript string operations.  Stateful code (the agent loop) is modelled by
explicit state passing over `ExecState`; the external collaborators (the adb
transport, the planner completion call, and the observation produced by
`getContext`) are parameters of the loop functions.
-/

/-- The space character, code point 32. -/
def spChar : Char := Char.ofNat 32

/-- The line-feed character, code point 10. -/
def lfChar : Char := Char.ofNat 10

/-- The tab character, code point 9. -/
def tabChar : Char := Char.ofNat 9

/-- The carriage-return character, code point 13. -/
def crChar : Char := Char.ofNat 13

/-- The comma character, code point 44. -/
def commaChar : Char := Char.ofNat 44

/-- The left-bracket character, code point 91. -/
def lbChar : Char := Char.ofNat 91

/-- The right-bracket character, code point 93. -/
def rbChar : Char := Char.ofNat 93

/-- Whitespace as removed by JavaScript `String.prototype.trim` (the
whitespace characters that actually occur in this program's data). -/
def jsIsSpace (c : Char) : Bool :=
  c == spChar || c == tabChar || c == lfChar || c == crChar

/-- Model of JavaScript `s.trim()`. -/
def jsTrim (s : List Char) : List Char :=
  ((s.dropWhile jsIsSpace).reverse.dropWhile jsIsSpace).reverse

/-- Model of JavaScript `s.toUpperCase()` on the ASCII data of this program. -/
def jsToUpper (s : List Char) : List Char := s.map Char.toUpper

/-- Model of JavaScript `s.split(sep)` for a one-character separator:
`""` splits to `[""]`, and consecutive separators produce empty fields. -/
def jsSplit (sep : Char) : List Char → List (List Char)
  | [] => [[]]
  | c :: rest =>
    match jsSplit sep rest with
    | [] => [[]]
    | g :: gs => if c = sep then [] :: g :: gs else (c :: g) :: gs

/-- Model of JavaScript `parts.join(sep)` for a one-character separator. -/
def jsJoin (sep : Char) : List (List Char) → List Char
  | [] => []
  | [g] => g
  | g :: gs => g ++ sep :: jsJoin sep gs

/-- Numeric value of a list of decimal digit characters
(model of JavaScript `Number` applied to a digit string). -/
def digitsVal (ds : List Char) : Nat :=
  ds.foldl (fun a c => a * 10 + (c.toNat - 48)) 0

/-- Model of JavaScript `parseInt(s, 10)`: an optional sign followed by a
maximal run of decimal digits; `none` models `NaN`. -/
def parseIntJs (s : List Char) : Option Int :=
  match s with
  | [] => none
  | c :: rest =>
    if c = Char.ofNat 45 then
      match rest.takeWhile Char.isDigit with
      | [] => none
      | ds => some (-(digitsVal ds : Int))
    else if c = Char.ofNat 43 then
      match rest.takeWhile Char.isDigit with
      | [] => none
      | ds => some ((digitsVal ds : Int))
    else
      match s.takeWhile Char.isDigit with
      | [] => none
      | ds => some ((digitsVal ds : Int))

/-!
## The bounds regular expression

`extractUiElements` matches each node's `bounds` attribute against the
JavaScript regular expression `(\d+),(\d+)(\d+),(\d+)` (index.js line 106).
`matchAtBounds` models one match attempt anchored at the start of the string,
with the backtracking semantics of the JavaScript engine: the first group
takes a maximal digit run which must be followed by a comma; the adjacent
groups 2 and 3 split a single maximal digit run of length at least two (group
3 backtracks to exactly the last digit of the run) which must be followedby a
comma; group 4 takes a final nonempty digit run.  `searchBounds` models the
leftmost-match search of `String.prototype.match`.
-/

/-- One anchored match attempt of `(\d+),(\d+)(\d+),(\d+)`, returning the
numeric values of the four capture groups. -/
def matchAtBounds (s : List Char) : Option (Nat × Nat × Nat × Nat) :=
  if s.takeWhile Char.isDigit = [] then none
  else
    match s.drop (s.takeWhile Char.isDigit).length with
    | [] => none
    | c1 :: rest1 =>
      if c1 = commaChar then
        if (rest1.takeWhile Char.isDigit).length < 2 then none
        else
          match rest1.drop (rest1.takeWhile Char.isDigit).length with
          | [] => none
          | c2 :: rest2 =>
            if c2 = commaChar then
              if rest2.takeWhile Char.isDigit = [] then none
              else
                some (digitsVal (s.takeWhile Char.isDigit),
                      digitsVal (rest1.takeWhile Char.isDigit).dropLast,
                      digitsVal ((rest1.takeWhile Char.isDigit).drop
                        ((rest1.takeWhile Char.isDigit).length - 1)),
                      digitsVal (rest2.takeWhile Char.isDigit))
            else none
      else none

/-- Leftmost search of the bounds pattern over the string, modelling
`bounds.match(...)`. -/
def searchBounds : List Char → Option (Nat × Nat × Nat × Nat)
  | [] => none
  | c :: rest =>
    match matchAtBounds (c :: rest) with
    | some r => some r
    | none => searchBounds rest

/-- The documented well-formed bounds format `[x1,y1][x2,y2]`, assembled from
the four digit strings of its coordinates. -/
def boundsRender (a b c d : List Char) : List Char :=
  lbChar :: (a ++ commaChar :: (b ++ rbChar :: lbChar ::
    (c ++ commaChar :: (d ++ [rbChar]))))

/-!
## UI tree and element extraction
-/

/-- The attributes (`$`) of one parsed XML node, as produced by xml2js. -/
structure UiAttrs where
  bounds : Option (List Char)
  text : Option (List Char)
  resourceId : Option (List Char)
  className : Option (List Char)
deriving DecidableEq

mutual
/-- A parsed XML node: optional attribute object plus child nodes. -/
inductive UiNode where
  | mk (attrs : Option UiAttrs) (children : UiForest)

/-- A list of sibling XML nodes. -/
inductive UiForest where
  | nil
  | cons (n : UiNode) (f : UiForest)
end

/-- One extracted interactable element (index.js lines 109-117). -/
structure UiElement where
  text : List Char
  resourceId : List Char
  className : List Char
  x : Nat
  y : Nat
  width : Int
  height : Int
deriving DecidableEq

/-- The element (if any) emitted for one node's attributes: the `bounds`
attribute (defaulted to the empty string) is matched against the bounds
pattern; on a match the element's geometry is computed from the four captured
numbers (index.js lines 104-118). -/
def nodeElems (attrs : Option UiAttrs) : List UiElement :=
  match attrs with
  | none => []
  | some a =>
    match searchBounds (a.bounds.getD []) with
    | none => []
    | some (x1, y1, x2, y2) =>
      [⟨a.text.getD [], a.resourceId.getD [], a.className.getD [],
        (x1 + x2) / 2, (y1 + y2) / 2,
        (x2 : Int) - (x1 : Int), (y2 : Int) - (y1 : Int)⟩]

mutual
/-- Pre-order traversal of one node (index.js `traverse`). -/
def traverseNode : UiNode → List UiElement
  | .mk attrs children => nodeElems attrs ++ traverseForest children

/-- Traversal of a list of sibling nodes. -/
def traverseForest : UiForest → List UiElement
  | .nil => []
  | .cons n f => traverseNode n ++ traverseForest f
end

/-- `extractUiElements` (index.js lines 100-128): `none` models a tree that is
absent or has no `hierarchy.node` root, yielding the empty element list. -/
def extractUiElements : Option UiNode → List UiElement
  | none => []
  | some root => traverseNode root

/-- The label chosen for one element when serializing the context:
`text`, else `resource-id`, else `class` (index.js line 134). -/
def labelOf (e : UiElement) : List Char :=
  if e.text ≠ [] then e.text
  else if e.resourceId ≠ [] then e.resourceId
  else e.className

/-- One serialized element entry: `"<label> [<x>,<y>]"`. -/
def renderElem (e : UiElement) : List Char :=
  labelOf e ++ spChar :: lbChar :: ((Nat.repr e.x).toList ++
    commaChar :: ((Nat.repr e.y).toList ++ [rbChar]))

/-- The serialized context string: entries joined with `", "`
(index.js line 134). -/
def serializeElems (es : List UiElement) : List Char :=
  List.intercalate (commaChar :: [spChar]) (es.map renderElem)

/-!
## Plan parsing (index.js lines 192-208)
-/

/-- One parsed step: the action string (`primary`) and the optional requested
delay in milliseconds (`sleep`); `none` models both an absent `sleep` field
and the falsy `NaN` produced by an unparsable `Sleep:` value. -/
structure Step where
  primary : List Char
  sleep : Option Int
deriving DecidableEq

/-- The reply-parsing loop of index.js lines 195-208, over the list of lines
and the step currently under construction: a line whose trimmed uppercase is
`DONE` is skipped; a `Command:` line flushes the open step and opens a new
one whose action is the trimmed remainder; a `Sleep:` line sets the open
step's delay to its parsed integer value times 1000 and is ignored when no
step is open; any still-open step is appended at end of input. -/
def parseLines : List (List Char) → Option Step → List Step
  | [], none => []
  | [], some s => [s]
  | line :: rest, cur =>
    if jsToUpper (jsTrim line) = "DONE".toList then parseLines rest cur
    else if "Command:".toList.isPrefixOf (jsTrim line) then
      (match cur with | none => [] | some s => [s]) ++
        parseLines rest (some ⟨jsTrim ((jsTrim line).drop 8), none⟩)
    else if "Sleep:".toList.isPrefixOf (jsTrim line) then
      match cur with
      | none => parseLines rest none
      | some s =>
        parseLines rest
          (some ⟨s.primary,
            (parseIntJs (jsTrim ((jsTrim line).drop 6))).map (fun n => n * 1000)⟩)
    else parseLines rest cur

/-- `parsePlan` splits the (already trimmed) reply on newlines and runs the
line loop with no step open (index.js lines 192-194). -/
def parsePlan (reply : List Char) : List Step :=
  parseLines (jsSplit lfChar reply) none

/-- The trimmed remainders of the `Command:`-marker lines of a reply, in their
order of appearance in the text. -/
def commandActions (lines : List (List Char)) : List (List Char) :=
  lines.filterMap (fun l =>
    if "Command:".toList.isPrefixOf (jsTrim l) then
      some (jsTrim ((jsTrim l).drop 8))
    else none)

/-- The action of a step still under construction, if any. -/
def pendingActions : Option Step → List (List Char)
  | none => []
  | some s => [s.primary]

/-!
## Step normalization and execution (index.js lines 210-255)
-/

/-- Model of `step.primary.replace(/^adb\s+/, '')` (index.js line 212):
strip one leading `adb` token together with the whitespace that follows it. -/
def stripAdb (p : List Char) : List Char :=
  if "adb".toList.isPrefixOf p then
    match p.drop 3 with
    | [] => p
    | c :: _ => if jsIsSpace c then (p.drop 3).dropWhile jsIsSpace else p
  else p

/-- Model of `textArg.replace(/ /g, '%s')` (index.js line 218): replace every
literal space with the two-character escape token `%s`. -/
def escapeSpaces : List Char → List Char
  | [] => []
  | c :: rest =>
    (if c = spChar then "%s".toList else [c]) ++ escapeSpaces rest

/-- Text-input normalization (index.js lines 214-221): when the action starts
with `shell input text` and splits into at least four space-separated parts,
the payload (the parts from the fourth on, rejoined with spaces) has every
space replaced by `%s` and the action is rebuilt. -/
def normalizeText (p : List Char) : List Char :=
  if "shell input text".toList.isPrefixOf p then
    if 4 ≤ (jsSplit spChar p).length then
      "shell input text ".toList ++
        escapeSpaces (jsJoin spChar ((jsSplit spChar p).drop 3))
    else p
  else p

/-- The tap-argument check of index.js lines 223-229: the step is skipped
when the action starts with `shell input tap` and splits into fewer than
four space-separated parts. -/
def tapMissingCoords (p : List Char) : Bool :=
  "shell input tap".toList.isPrefixOf p &&
    decide ((jsSplit spChar p).length < 4)

/-- Message roles of the conversation. -/
inductive Role where
  | system
  | user
  | assistant
deriving DecidableEq

/-- One conversation message. -/
structure Message where
  role : Role
  content : List Char
deriving DecidableEq

/-- The system message appending one fresh observation:
`'UI Context: ' + context` (index.js lines 172 and 254). -/
def ctxMsg (ctx : List Char) : Message :=
  ⟨Role.system, "UI Context: ".toList ++ ctx⟩

/-- Outcome of executing one plan's steps. -/
inductive RunStatus where
  | completed
  | aborted
deriving DecidableEq

/-- Result of the whole agent loop. -/
inductive LoopResult where
  | terminated
  | aborted
  | fuelOut
deriving DecidableEq

/-- Loop-visible state: the conversation history, the list of commands sent
to the device transport so far, and the number of observations taken. -/
structure ExecState where
  conv : List Message
  sent : List (List Char)
  obsCount : Nat
deriving DecidableEq

/-- The step-execution loop of index.js lines 210-255.  `transport` models
`executeAdbCommand` on the normalized action (`true` = success); `obs` models
the context string returned by the n-th call of `getContext`.  A step with an
empty action is skipped; the action is stripped of a redundant `adb` prefix
and text-normalized; a tap action with fewer than four space-separated parts
is skipped; otherwise the action is sent to the transport — on failure the
loop returns immediately with `aborted`, on success a fresh observation is
appended to the conversation and the loop proceeds to the next step. -/
def execSteps (transport : List Char → Bool) (obs : Nat → List Char) :
    List Step → ExecState → ExecState × RunStatus
  | [], st => (st, RunStatus.completed)
  | s :: rest, st =>
    if s.primary = [] then execSteps transport obs rest st
    else if tapMissingCoords (normalizeText (stripAdb s.primary)) then
      execSteps transport obs rest st
    else
      if transport (normalizeText (stripAdb s.primary)) then
        execSteps transport obs rest
          ⟨st.conv ++ [ctxMsg (obs st.obsCount)],
           st.sent ++ [normalizeText (stripAdb s.primary)],
           st.obsCount + 1⟩
      else
        (⟨st.conv, st.sent ++ [normalizeText (stripAdb s.primary)],
          st.obsCount⟩, RunStatus.aborted)

/-- The agent `while` loop of index.js lines 170-256, with explicit fuel.
Each turn: append the fresh UI context to the conversation, obtain the
planner reply on the grown history, append the trimmed reply as an assistant
message; if the trimmed reply uppercases to `DONE` the loop terminates;
otherwise the reply is parsed into steps and executed — an aborted execution
ends the run, a completed one starts the next turn. -/
def runLoop (planner : List Message → List Char) (transport : List Char → Bool)
    (obs : Nat → List Char) : Nat → ExecState → ExecState × LoopResult
  | 0, st => (st, LoopResult.fuelOut)
  | Nat.succ fuel, st =>
    if jsToUpper (jsTrim (planner (st.conv ++ [ctxMsg (obs st.obsCount)])))
        = "DONE".toList then
      (⟨st.conv ++ [ctxMsg (obs st.obsCount)] ++
          [⟨Role.assistant,
            jsTrim (planner (st.conv ++ [ctxMsg (obs st.obsCount)]))⟩],
        st.sent, st.obsCount + 1⟩, LoopResult.terminated)
    else
      match execSteps transport obs
          (parsePlan (jsTrim (planner (st.conv ++ [ctxMsg (obs st.obsCount)]))))
          ⟨st.conv ++ [ctxMsg (obs st.obsCount)] ++
              [⟨Role.assistant,
                jsTrim (planner (st.conv ++ [ctxMsg (obs st.obsCount)]))⟩],
            st.sent, st.obsCount + 1⟩ with
      | (st3, RunStatus.completed) => runLoop planner transport obs fuel st3
      | (st3, RunStatus.aborted) => (st3, LoopResult.aborted)

/-!
## Layout fetching (index.js lines 84-98, 130-135)
-/

/-- The fallible external operations used by one layout fetch: triggering the
dump, pulling the artifact, the artifact's existence, reading it, and parsing
the XML (the parse result `Option UiNode` models the presence or absence of
the `hierarchy.node` root). -/
structure FetchEnv where
  dump : Except (List Char) Unit
  pull : Except (List Char) Unit
  artifactExists : Bool
  readArtifact : Except (List Char) (List Char)
  parseXml : List Char → Except (List Char) (Option UiNode)

/-- `getUiTree` (index.js lines 84-98): the `try` block threads the five
fallible operations and the `catch` converts any error into `none` (`null`). -/
def getUiTree (env : FetchEnv) : Option (Option UiNode) :=
  match env.dump with
  | .error _ => none
  | .ok _ =>
    match env.pull with
    | .error _ => none
    | .ok _ =>
      if env.artifactExists = false then none
      else
        match env.readArtifact with
        | .error _ => none
        | .ok xml =>
          match env.parseXml xml with
          | .error _ => none
          | .ok t => some t

/-- `getContext` (index.js lines 130-135): an absent tree serializes to the
string `Unknown`; otherwise the extracted elements are serialized. -/
def getContext (env : FetchEnv) : List Char :=
  match getUiTree env with
  | none => "Unknown".toList
  | some t => serializeElems (extractUiElements t)

/-- Pointwise case-insensitive equality of two character lists (used to state
that a reply equals the terminal keyword in any letter case). -/
def eqIgnoreCase : List Char → List Char → Bool
  | [], [] => true
  | c :: cs, d :: ds => (c == d || c == d.toLower) && eqIgnoreCase cs ds
  | _, _ => false

/-!
## Basic lemmas about the string helpers
-/

theorem takeWhile_all_append (p : Char → Bool) (xs : List Char) (y : Char)
    (ys : List Char) (hxs : ∀ x ∈ xs, p x = true) (hy : p y = false) :
    (xs ++ y :: ys).takeWhile p = xs := by
  induction xs with
  | nil => simp [List.takeWhile_cons, hy]
  | cons x xs ih =>
    have hx : p x = true := hxs x (List.mem_cons_self x xs)
    simp only [List.cons_append, List.takeWhile_cons, hx, if_true]
    rw [ih (fun z hz => hxs z (List.mem_cons_of_mem x hz))]

theorem jsSplit_ne_nil (sep : Char) (s : List Char) : jsSplit sep s ≠ [] := by
  cases s with
  | nil => simp [jsSplit]
  | cons c rest =>
    simp only [jsSplit]
    split
    · simp
    · split <;> simp

theorem jsJoin_jsSplit (sep : Char) (s : List Char) :
    jsJoin sep (jsSplit sep s) = s := by
  induction s with
  | nil => rfl
  | cons c rest ih =>
    simp only [jsSplit]
    cases h : jsSplit sep rest with
    | nil => exact absurd h (jsSplit_ne_nil sep rest)
    | cons g gs =>
      rw [h] at ih
      by_cases hc : c = sep
      · simp only [hc, if_true, jsJoin]
        cases gs with
        | nil => simp [jsJoin] at ih ⊢; rw [ih]
        | cons g2 gs2 => simp [jsJoin] at ih ⊢; rw [ih]
      · simp only [hc, if_false]
        cases gs with
        | nil => simp [jsJoin] at ih ⊢; rw [ih]
        | cons g2 gs2 =>
          simp only [jsJoin] at ih ⊢
          rw [List.cons_append, ih]

theorem jsSplit_append_sep (sep : Char) (xs ys : List Char)
    (h : ∀ c ∈ xs, c ≠ sep) :
    jsSplit sep (xs ++ sep :: ys) = xs :: jsSplit sep ys := by
  induction xs with
  | nil =>
    simp only [List.nil_append, jsSplit]
    cases h2 : jsSplit sep ys with
    | nil => exact absurd h2 (jsSplit_ne_nil sep ys)
    | cons g gs => simp
  | cons x xs ih =>
    simp only [List.cons_append, jsSplit, List.append_eq]
    rw [ih (fun c hc => h c (List.mem_cons_of_mem x hc))]
    have hx : x ≠ sep := h x (List.mem_cons_self x xs)
    simp [hx]

theorem escapeSpaces_no_space (s : List Char) : spChar ∉ escapeSpaces s := by
  induction s with
  | nil => simp [escapeSpaces]
  | cons c rest ih =>
    simp only [escapeSpaces]
    by_cases hc : c = spChar
    · simp only [hc, if_true]
      intro hmem
      rcases List.mem_append.mp hmem with hmem1 | hmem2
      · revert hmem1; decide
      · exact ih hmem2
    · simp only [hc, if_false]
      intro hmem
      rcases List.mem_append.mp hmem with hmem1 | hmem2
      · exact hc ((List.mem_singleton.mp hmem1).symm)
      · exact ih hmem2

theorem escapeSpaces_of_no_space (s : List Char) (h : spChar ∉ s) :
    escapeSpaces s = s := by
  induction s with
  | nil => rfl
  | cons c rest ih =>
    have hc : c ≠ spChar := fun he => h (he ▸ List.mem_cons_self c rest)
    have hc2 : ¬(c = spChar) := hc
    simp only [escapeSpaces, hc2, if_false, List.singleton_append]
    rw [ih (fun hm => h (List.mem_cons_of_mem c hm))]

theorem length_le_of_isPrefixOf (l t : List Char)
    (h : l.isPrefixOf t = true) : l.length ≤ t.length :=
  List.IsPrefix.length_le (List.isPrefixOf_iff_prefix.mp h)

theorem not_done_of_long (t : List Char) (h5 : 5 ≤ t.length) :
    jsToUpper t ≠ "DONE".toList := by
  intro he
  have hl := congrArg List.length he
  simp only [jsToUpper, List.length_map] at hl
  rw [hl] at h5
  revert h5; decide

theorem cmd_not_done (t : List Char)
    (h : "Command:".toList.isPrefixOf t = true) :
    jsToUpper t ≠ "DONE".toList := by
  have := length_le_of_isPrefixOf _ _ h
  exact not_done_of_long t (le_trans (by decide) this)

theorem sleep_not_done (t : List Char)
    (h : "Sleep:".toList.isPrefixOf t = true) :
    jsToUpper t ≠ "DONE".toList := by
  have := length_le_of_isPrefixOf _ _ h
  exact not_done_of_long t (le_trans (by decide) this)

theorem sleep_not_cmd (t : List Char)
    (h : "Sleep:".toList.isPrefixOf t = true) :
    "Command:".toList.isPrefixOf t = false := by
  cases hc : "Command:".toList.isPrefixOf t with
  | false => rfl
  | true =>
    exfalso
    have h1 := List.isPrefixOf_iff_prefix.mp h
    have h2 := List.isPrefixOf_iff_prefix.mp hc
    rcases List.prefix_or_prefix_of_prefix h2 h1 with h3 | h3
    · exact absurd h3 (by decide)
    · exact absurd h3 (by decide)

theorem eqIgnoreCase_toUpper (s t : List Char)
    (ht : ∀ d ∈ t, Char.toUpper d = d ∧ Char.toUpper d.toLower = d)
    (h : eqIgnoreCase s t = true) : jsToUpper s = t := by
  induction s generalizing t with
  | nil =>
    cases t with
    | nil => rfl
    | cons d ds => simp [eqIgnoreCase] at h
  | cons c cs ih =>
    cases t with
    | nil => simp [eqIgnoreCase] at h
    | cons d ds =>
      simp only [eqIgnoreCase, Bool.and_eq_true, Bool.or_eq_true,
        beq_iff_eq] at h
      obtain ⟨hcd, hrest⟩ := h
      have hd := ht d (List.mem_cons_self d ds)
      have hup : Char.toUpper c = d := by
        rcases hcd with hcd | hcd
        · rw [hcd]; exact hd.1
        · rw [hcd]; exact hd.2
      simp only [jsToUpper, List.map_cons]
      rw [hup]
      have := ih ds (fun e he => ht e (List.mem_cons_of_mem d he)) hrest
      simp only [jsToUpper] at this
      rw [this]

/-!
## The bounds pattern never matches a well-formed bounds string

The pattern `(\d+),(\d+)(\d+),(\d+)` requires its two commas to be separated
by digits only, while in `[x1,y1][x2,y2]` the two commas are separated by the
bracket pair `][`.  The lemmas below show that a match attempt fails at every
start position of a well-formed bounds string.
-/

theorem matchAtBounds_not_digit (y : Char) (ys : List Char)
    (hy : Char.isDigit y = false) : matchAtBounds (y :: ys) = none := by
  simp [matchAtBounds, List.takeWhile_cons, hy]

theorem matchAtBounds_run_not_comma (xs : List Char) (y : Char) (ys : List Char)
    (hxs : ∀ x ∈ xs, Char.isDigit x = true)
    (hy : Char.isDigit y = false) (hy2 : y ≠ commaChar) :
    matchAtBounds (xs ++ y :: ys) = none := by
  cases xs with
  | nil => exact matchAtBounds_not_digit y ys hy
  | cons x xs =>
    have htw : ((x :: xs) ++ y :: ys).takeWhile Char.isDigit = x :: xs :=
      takeWhile_all_append _ _ _ _ hxs hy
    simp only [matchAtBounds, htw]
    rw [List.drop_left]
    simp [hy2]

theorem matchAtBounds_two_runs_not_comma (xs zs : List Char) (y : Char)
    (ys : List Char)
    (hxs : ∀ x ∈ xs, Char.isDigit x = true)
    (hzs : ∀ x ∈ zs, Char.isDigit x = true)
    (hy : Char.isDigit y = false) (hy2 : y ≠ commaChar) :
    matchAtBounds (xs ++ commaChar :: (zs ++ y :: ys)) = none := by
  cases xs with
  | nil =>
    exact matchAtBounds_not_digit commaChar (zs ++ y :: ys) (by decide)
  | cons x xs =>
    have htw : ((x :: xs) ++ commaChar :: (zs ++ y :: ys)).takeWhile
        Char.isDigit = x :: xs :=
      takeWhile_all_append _ _ _ _ hxs (by decide)
    have htw2 : (zs ++ y :: ys).takeWhile Char.isDigit = zs :=
      takeWhile_all_append _ _ _ _ hzs hy
    simp only [matchAtBounds, htw]
    rw [List.drop_left]
    simp only [reduceCtorEq, if_true, if_false, reduceIte, htw2]
    by_cases hlen : zs.length < 2
    · simp [hlen]
    · simp only [hlen, if_false, reduceIte]
      rw [List.drop_left]
      simp [hy2]

theorem searchBounds_cons_none (c : Char) (rest : List Char)
    (h : matchAtBounds (c :: rest) = none) :
    searchBounds (c :: rest) = searchBounds rest := by
  simp [searchBounds, h]

theorem searchBounds_digits_rb (dd : List Char)
    (hdd : ∀ x ∈ dd, Char.isDigit x = true) :
    searchBounds (dd ++ [rbChar]) = none := by
  induction dd with
  | nil =>
    rw [List.nil_append,
      searchBounds_cons_none rbChar [] (matchAtBounds_not_digit _ _ (by decide))]
    rfl
  | cons x dd ih =>
    rw [List.cons_append,
      searchBounds_cons_none x (dd ++ [rbChar])
        (by
          have := matchAtBounds_run_not_comma (x :: dd) rbChar [] hdd
            (by decide) (by decide)
          simpa using this)]
    exact ih (fun z hz => hdd z (List.mem_cons_of_mem x hz))

theorem searchBounds_second_pair (cc dd : List Char)
    (hcc : ∀ x ∈ cc, Char.isDigit x = true)
    (hdd : ∀ x ∈ dd, Char.isDigit x = true) :
    searchBounds (cc ++ commaChar :: (dd ++ [rbChar])) = none := by
  induction cc with
  | nil =>
    rw [List.nil_append,
      searchBounds_cons_none commaChar (dd ++ [rbChar])
        (matchAtBounds_not_digit _ _ (by decide))]
    exact searchBounds_digits_rb dd hdd
  | cons x cc ih =>
    rw [List.cons_append,
      searchBounds_cons_none x (cc ++ commaChar :: (dd ++ [rbChar]))
        (by
          have := matchAtBounds_two_runs_not_comma (x :: cc) dd rbChar []
            hcc hdd (by decide) (by decide)
          simpa using this)]
    exact ih (fun z hz => hcc z (List.mem_cons_of_mem x hz))

theorem searchBounds_after_first_pair (bb cc dd : List Char)
    (hbb : ∀ x ∈ bb, Char.isDigit x = true)
    (hcc : ∀ x ∈ cc, Char.isDigit x = true)
    (hdd : ∀ x ∈ dd, Char.isDigit x = true) :
    searchBounds (bb ++ rbChar :: lbChar ::
      (cc ++ commaChar :: (dd ++ [rbChar]))) = none := by
  induction bb with
  | nil =>
    rw [List.nil_append,
      searchBounds_cons_none rbChar
        (lbChar :: (cc ++ commaChar :: (dd ++ [rbChar])))
        (matchAtBounds_not_digit _ _ (by decide)),
      searchBounds_cons_none lbChar (cc ++ commaChar :: (dd ++ [rbChar]))
        (matchAtBounds_not_digit _ _ (by decide))]
    exact searchBounds_second_pair cc dd hcc hdd
  | cons x bb ih =>
    rw [List.cons_append,
      searchBounds_cons_none x
        (bb ++ rbChar :: lbChar :: (cc ++ commaChar :: (dd ++ [rbChar])))
        (by
          have := matchAtBounds_run_not_comma (x :: bb) rbChar
            (lbChar :: (cc ++ commaChar :: (dd ++ [rbChar])))
            hbb (by decide) (by decide)
          simpa using this)]
    exact ih (fun z hz => hbb z (List.mem_cons_of_mem x hz))

theorem searchBounds_first_coord (aa bb cc dd : List Char)
    (haa : ∀ x ∈ aa, Char.isDigit x = true)
    (hbb : ∀ x ∈ bb, Char.isDigit x = true)
    (hcc : ∀ x ∈ cc, Char.isDigit x = true)
    (hdd : ∀ x ∈ dd, Char.isDigit x = true) :
    searchBounds (aa ++ commaChar :: (bb ++ rbChar :: lbChar ::
      (cc ++ commaChar :: (dd ++ [rbChar])))) = none := by
  induction aa with
  | nil =>
    rw [List.nil_append,
      searchBounds_cons_none commaChar
        (bb ++ rbChar :: lbChar :: (cc ++ commaChar :: (dd ++ [rbChar])))
        (matchAtBounds_not_digit _ _ (by decide))]
    exact searchBounds_after_first_pair bb cc dd hbb hcc hdd
  | cons x aa ih =>
    rw [List.cons_append,
      searchBounds_cons_none x
        (aa ++ commaChar :: (bb ++ rbChar :: lbChar ::
          (cc ++ commaChar :: (dd ++ [rbChar]))))
        (by
          have := matchAtBounds_two_runs_not_comma (x :: aa) bb rbChar
            (lbChar :: (cc ++ commaChar :: (dd ++ [rbChar])))
            haa hbb (by decide) (by decide)
          simpa using this)]
    exact ih (fun z hz => haa z (List.mem_cons_of_mem x hz))

theorem searchBounds_wellformed_none (aa bb cc dd : List Char)
    (haa : ∀ x ∈ aa, Char.isDigit x = true)
    (hbb : ∀ x ∈ bb, Char.isDigit x = true)
    (hcc : ∀ x ∈ cc, Char.isDigit x = true)
    (hdd : ∀ x ∈ dd, Char.isDigit x = true) :
    searchBounds (boundsRender aa bb cc dd) = none := by
  unfold boundsRender
  rw [searchBounds_cons_none lbChar _ (matchAtBounds_not_digit _ _ (by decide))]
  exact searchBounds_first_coord aa bb cc dd haa hbb hcc hdd

/-!
## Branch equations for the step-execution loop
-/

theorem execSteps_skip_empty (transport : List Char → Bool)
    (obs : Nat → List Char) (s : Step) (rest : List Step) (st : ExecState)
    (h : s.primary = []) :
    execSteps transport obs (s :: rest) st = execSteps transport obs rest st := by
  simp [execSteps, h]

theorem execSteps_skip_tap (transport : List Char → Bool)
    (obs : Nat → List Char) (s : Step) (rest : List Step) (st : ExecState)
    (h1 : s.primary ≠ [])
    (h2 : tapMissingCoords (normalizeText (stripAdb s.primary)) = true) :
    execSteps transport obs (s :: rest) st = execSteps transport obs rest st := by
  simp [execSteps, h1, h2]

theorem execSteps_exec_success (transport : List Char → Bool)
    (obs : Nat → List Char) (s : Step) (rest : List Step) (st : ExecState)
    (h1 : s.primary ≠ [])
    (h2 : tapMissingCoords (normalizeText (stripAdb s.primary)) = false)
    (h3 : transport (normalizeText (stripAdb s.primary)) = true) :
    execSteps transport obs (s :: rest) st =
      execSteps transport obs rest
        ⟨st.conv ++ [ctxMsg (obs st.obsCount)],
         st.sent ++ [normalizeText (stripAdb s.primary)],
         st.obsCount + 1⟩ := by
  simp [execSteps, h1, h2, h3]

theorem execSteps_exec_fail (transport : List Char → Bool)
    (obs : Nat → List Char) (s : Step) (rest : List Step) (st : ExecState)
    (h1 : s.primary ≠ [])
    (h2 : tapMissingCoords (normalizeText (stripAdb s.primary)) = false)
    (h3 : transport (normalizeText (stripAdb s.primary)) = false) :
    execSteps transport obs (s :: rest) st =
      (⟨st.conv, st.sent ++ [normalizeText (stripAdb s.primary)],
        st.obsCount⟩, RunStatus.aborted) := by
  simp [execSteps, h1, h2, h3]

theorem execSteps_conv_extends (transport : List Char → Bool)
    (obs : Nat → List Char) (steps : List Step) :
    ∀ st : ExecState, ∃ d, (execSteps transport obs steps st).1.conv
      = st.conv ++ d := by
  induction steps with
  | nil => intro st; exact ⟨[], by simp [execSteps]⟩
  | cons s rest ih =>
    intro st
    by_cases h1 : s.primary = []
    · rw [execSteps_skip_empty transport obs s rest st h1]; exact ih st
    · by_cases h2 : tapMissingCoords (normalizeText (stripAdb s.primary)) = true
      · rw [execSteps_skip_tap transport obs s rest st h1 h2]; exact ih st
      · have h2f : tapMissingCoords (normalizeText (stripAdb s.primary))
            = false := by simpa using h2
        by_cases h3 : transport (normalizeText (stripAdb s.primary)) = true
        · rw [execSteps_exec_success transport obs s rest st h1 h2f h3]
          obtain ⟨d, hd⟩ := ih ⟨st.conv ++ [ctxMsg (obs st.obsCount)],
            st.sent ++ [normalizeText (stripAdb s.primary)], st.obsCount + 1⟩
          exact ⟨[ctxMsg (obs st.obsCount)] ++ d, by
            rw [hd]; simp⟩
        · have h3f : transport (normalizeText (stripAdb s.primary))
              = false := by simpa using h3
          rw [execSteps_exec_fail transport obs s rest st h1 h2f h3f]
          exact ⟨[], by simp⟩

theorem runLoop_done_turn (planner : List Message → List Char)
    (transport : List Char → Bool) (obs : Nat → List Char)
    (fuel : Nat) (st : ExecState)
    (hdone : jsToUpper (jsTrim (planner (st.conv ++ [ctxMsg (obs st.obsCount)])))
      = "DONE".toList) :
    runLoop planner transport obs (fuel + 1) st =
      (⟨st.conv ++ [ctxMsg (obs st.obsCount)] ++
          [⟨Role.assistant,
            jsTrim (planner (st.conv ++ [ctxMsg (obs st.obsCount)]))⟩],
        st.sent, st.obsCount + 1⟩, LoopResult.terminated) := by
  simp [runLoop, hdone]

theorem runLoop_exec_turn (planner : List Message → List Char)
    (transport : List Char → Bool) (obs : Nat → List Char)
    (fuel : Nat) (st st3 : ExecState) (status : RunStatus)
    (hdone : jsToUpper (jsTrim (planner (st.conv ++ [ctxMsg (obs st.obsCount)])))
      ≠ "DONE".toList)
    (hexec : execSteps transport obs
        (parsePlan (jsTrim (planner (st.conv ++ [ctxMsg (obs st.obsCount)]))))
        ⟨st.conv ++ [ctxMsg (obs st.obsCount)] ++
            [⟨Role.assistant,
              jsTrim (planner (st.conv ++ [ctxMsg (obs st.obsCount)]))⟩],
          st.sent, st.obsCount + 1⟩ = (st3, status)) :
    runLoop planner transport obs (fuel + 1) st =
      (match status with
       | RunStatus.completed => runLoop planner transport obs fuel st3
       | RunStatus.aborted => (st3, LoopResult.aborted)) := by
  simp only [runLoop, hdone, if_false, reduceIte, hexec]
  cases status <;> rfl

theorem runLoop_conv_extends (planner : List Message → List Char)
    (transport : List Char → Bool) (obs : Nat → List Char) (fuel : Nat) :
    ∀ st : ExecState, ∃ d, (runLoop planner transport obs fuel st).1.conv
      = st.conv ++ d := by
  induction fuel with
  | zero => intro st; exact ⟨[], by simp [runLoop]⟩
  | succ fuel ih =>
    intro st
    by_cases hdone : jsToUpper (jsTrim (planner
        (st.conv ++ [ctxMsg (obs st.obsCount)]))) = "DONE".toList
    · rw [runLoop_done_turn planner transport obs fuel st hdone]
      exact ⟨[ctxMsg (obs st.obsCount)] ++
        [⟨Role.assistant,
          jsTrim (planner (st.conv ++ [ctxMsg (obs st.obsCount)]))⟩], by simp⟩
    · rcases hexec : execSteps transport obs
          (parsePlan (jsTrim (planner (st.conv ++ [ctxMsg (obs st.obsCount)]))))
          ⟨st.conv ++ [ctxMsg (obs st.obsCount)] ++
              [⟨Role.assistant,
                jsTrim (planner (st.conv ++ [ctxMsg (obs st.obsCount)]))⟩],
            st.sent, st.obsCount + 1⟩ with ⟨st3, status⟩
      have hst3 : ∃ d, st3.conv = (st.conv ++ [ctxMsg (obs st.obsCount)] ++
          [⟨Role.assistant,
            jsTrim (planner (st.conv ++ [ctxMsg (obs st.obsCount)]))⟩]) ++ d := by
        have h := execSteps_conv_extends transport obs
          (parsePlan (jsTrim (planner (st.conv ++ [ctxMsg (obs st.obsCount)]))))
          ⟨st.conv ++ [ctxMsg (obs st.obsCount)] ++
              [⟨Role.assistant,
                jsTrim (planner (st.conv ++ [ctxMsg (obs st.obsCount)]))⟩],
            st.sent, st.obsCount + 1⟩
        rw [hexec] at h
        exact h
      rw [runLoop_exec_turn planner transport obs fuel st st3 status hdone hexec]
      obtain ⟨d1, hd1⟩ := hst3
      cases status with
      | completed =>
        obtain ⟨d2, hd2⟩ := ih st3
        refine ⟨[ctxMsg (obs st.obsCount)] ++
          [⟨Role.assistant,
            jsTrim (planner (st.conv ++ [ctxMsg (obs st.obsCount)]))⟩] ++
          d1 ++ d2, ?_⟩
        simp only []
        rw [hd2, hd1]
        simp
      | aborted =>
        refine ⟨[ctxMsg (obs st.obsCount)] ++
          [⟨Role.assistant,
            jsTrim (planner (st.conv ++ [ctxMsg (obs st.obsCount)]))⟩] ++
          d1, ?_⟩
        simp only []
        rw [hd1]
        simp

/-!
## Text-input normalization lemmas
-/

theorem normalizeText_payload (payload : List Char) :
    normalizeText ("shell input text ".toList ++ payload)
      = "shell input text ".toList ++ escapeSpaces payload := by
  have hpre : "shell input text".toList.isPrefixOf
      ("shell input text ".toList ++ payload) = true := by
    rw [List.isPrefixOf_iff_prefix]
    exact ⟨spChar :: payload, rfl⟩
  have hshape : "shell input text ".toList ++ payload
      = "shell".toList ++ spChar :: ("input".toList ++ spChar ::
          ("text".toList ++ spChar :: payload)) := rfl
  have hsplit : jsSplit spChar ("shell input text ".toList ++ payload)
      = "shell".toList :: "input".toList :: "text".toList
        :: jsSplit spChar payload := by
    rw [hshape, jsSplit_append_sep spChar _ _ (by decide),
      jsSplit_append_sep spChar _ _ (by decide),
      jsSplit_append_sep spChar _ _ (by decide)]
  have hlen : 4 ≤ (jsSplit spChar
      ("shell input text ".toList ++ payload)).length := by
    rw [hsplit]
    simp only [List.length_cons]
    have := List.length_pos.mpr (jsSplit_ne_nil spChar payload)
    omega
  unfold normalizeText
  rw [if_pos hpre, if_pos hlen, hsplit]
  show "shell input text ".toList ++
    escapeSpaces (jsJoin spChar (jsSplit spChar payload)) = _
  rw [jsJoin_jsSplit]

theorem normalizeText_idem (p : List Char) :
    normalizeText (normalizeText p) = normalizeText p := by
  by_cases hpre : "shell input text".toList.isPrefixOf p = true
  · by_cases hlen : 4 ≤ (jsSplit spChar p).length
    · have h1 : normalizeText p = "shell input text ".toList ++
          escapeSpaces (jsJoin spChar ((jsSplit spChar p).drop 3)) := by
        unfold normalizeText
        rw [if_pos hpre, if_pos hlen]
      rw [h1, normalizeText_payload,
        escapeSpaces_of_no_space _ (escapeSpaces_no_space _)]
    · have h1 : normalizeText p = p := by
        unfold normalizeText
        rw [if_pos hpre, if_neg hlen]
      rw [h1]; exact h1
  · have h1 : normalizeText p = p := by
      unfold normalizeText
      rw [if_neg hpre]
    rw [h1]; exact h1

/-!
## Plan-parser lemmas
-/


theorem commandActions_cons_cmd (line : List Char) (rest : List (List Char))
    (h : "Command:".toList.isPrefixOf (jsTrim line) = true) :
    commandActions (line :: rest)
      = jsTrim ((jsTrim line).drop 8) :: commandActions rest := by
  simp only [commandActions, List.filterMap_cons]
  rw [if_pos h]

theorem commandActions_cons_not_cmd (line : List Char) (rest : List (List Char))
    (h : "Command:".toList.isPrefixOf (jsTrim line) = false) :
    commandActions (line :: rest) = commandActions rest := by
  simp only [commandActions, List.filterMap_cons]
  rw [if_neg (ne_true_of_eq_false h)]

theorem parseLines_primary (lines : List (List Char)) :
    ∀ cur : Option Step, (parseLines lines cur).map Step.primary
      = pendingActions cur ++ commandActions lines := by
  induction lines with
  | nil =>
    intro cur
    cases cur with
    | none => simp [parseLines, pendingActions, commandActions]
    | some s => simp [parseLines, pendingActions, commandActions]
  | cons line rest ih =>
    intro cur
    by_cases hdone : jsToUpper (jsTrim line) = "DONE".toList
    · have hcmd : "Command:".toList.isPrefixOf (jsTrim line) = false := by
        cases hc : "Command:".toList.isPrefixOf (jsTrim line) with
        | false => rfl
        | true => exact absurd hdone (cmd_not_done _ hc)
      simp only [parseLines, if_pos hdone]
      rw [ih cur, commandActions_cons_not_cmd line rest hcmd]
    · by_cases hcmd : "Command:".toList.isPrefixOf (jsTrim line) = true
      · simp only [parseLines, if_neg hdone, if_pos hcmd]
        rw [List.map_append, ih, commandActions_cons_cmd line rest hcmd]
        cases cur with
        | none => simp [pendingActions]
        | some s => simp [pendingActions]
      · have hcmdf : "Command:".toList.isPrefixOf (jsTrim line) = false := by
          cases hc : "Command:".toList.isPrefixOf (jsTrim line) with
          | false => rfl
          | true => exact absurd hc hcmd
        by_cases hsleep : "Sleep:".toList.isPrefixOf (jsTrim line) = true
        · cases cur with
          | none =>
            simp only [parseLines, if_neg hdone, if_neg hcmd, if_pos hsleep]
            rw [ih none, commandActions_cons_not_cmd line rest hcmdf]
          | some s =>
            simp only [parseLines, if_neg hdone, if_neg hcmd, if_pos hsleep]
            rw [ih (some ⟨s.primary,
              (parseIntJs (jsTrim ((jsTrim line).drop 6))).map
                (fun n => n * 1000)⟩),
              commandActions_cons_not_cmd line rest hcmdf]
            simp [pendingActions]
        · simp only [parseLines, if_neg hdone, if_neg hcmd, if_neg hsleep]
          rw [ih cur, commandActions_cons_not_cmd line rest hcmdf]

theorem parseLines_sleep_open (line : List Char) (rest : List (List Char))
    (s : Step) (hsleep : "Sleep:".toList.isPrefixOf (jsTrim line) = true) :
    parseLines (line :: rest) (some s) = parseLines rest
      (some ⟨s.primary,
        (parseIntJs (jsTrim ((jsTrim line).drop 6))).map (fun n => n * 1000)⟩) := by
  have hdone := sleep_not_done _ hsleep
  have hcmd := sleep_not_cmd _ hsleep
  simp only [parseLines, if_neg hdone]
  rw [if_neg (ne_true_of_eq_false hcmd), if_pos hsleep]

theorem parseLines_sleep_closed (line : List Char) (rest : List (List Char))
    (hsleep : "Sleep:".toList.isPrefixOf (jsTrim line) = true) :
    parseLines (line :: rest) none = parseLines rest none := by
  have hdone := sleep_not_done _ hsleep
  have hcmd := sleep_not_cmd _ hsleep
  simp only [parseLines, if_neg hdone]
  rw [if_neg (ne_true_of_eq_false hcmd), if_pos hsleep]

/-!
## A node with well-formed bounds never yields an element
-/

theorem traverseNode_wellformed_bounds (aa bb cc dd : List Char)
    (t r cl : Option (List Char)) (f : UiForest)
    (haa : ∀ x ∈ aa, Char.isDigit x = true)
    (hbb : ∀ x ∈ bb, Char.isDigit x = true)
    (hcc : ∀ x ∈ cc, Char.isDigit x = true)
    (hdd : ∀ x ∈ dd, Char.isDigit x = true) :
    traverseNode (UiNode.mk
      (some ⟨some (boundsRender aa bb cc dd), t, r, cl⟩) f)
      = traverseForest f := by
  have hs := searchBounds_wellformed_none aa bb cc dd haa hbb hcc hdd
  simp [traverseNode, nodeElems, hs]

/-!
## The claims
-/

/-- Claim C1: the spec states that every node whose bounds attribute is a
well-formed `[x1,y1][x2,y2]` string yields a `UiElement` with the computed
midpoint and extents.  The code's bounds pattern `(\d+),(\d+)(\d+),(\d+)`
lacks the `][` separator between the two coordinate pairs, so it never
matches a well-formed bounds string and the extractor emits nothing: at the
failing input `[0,0][100,200]` the node yields no element at all, where the
claim requires an element with `width = 100`, `height = 200`, `x = 50`,
`y = 100`. -/
theorem claim_c1_wellformed_bounds_yield_no_element :
    boundsRender ("0".toList) ("0".toList) ("100".toList) ("200".toList)
      = "[0,0][100,200]".toList ∧
    extractUiElements (some (UiNode.mk
      (some ⟨some ("[0,0][100,200]".toList), some "OK".toList, none, none⟩)
      UiForest.nil)) = [] :=
  ⟨by decide, by rfl⟩

/-- Claim C2: the spec states that a tap action with fewer than two trailing
arguments is rejected and never reaches the transport.  The code's check
`parts.length < 4` only rejects a tap with no trailing argument at all: the
failing input `shell input tap 100` (one trailing argument) passes the check
and is sent to the transport. -/
theorem claim_c2_one_arg_tap_reaches_transport :
    tapMissingCoords ("shell input tap 100".toList) = false ∧
    execSteps (fun _ => true) (fun _ => [])
        [⟨"shell input tap 100".toList, none⟩] ⟨[], [], 0⟩
      = (⟨[⟨Role.system, "UI Context: ".toList⟩],
          ["shell input tap 100".toList], 1⟩, RunStatus.completed) :=
  ⟨by decide, by decide⟩

/-- Claim C3 (counterexample): the claim states that a fresh observation is
appended after every step, executed or skipped-as-rejected.  Running the
single rejected tap step `shell input tap` leaves the conversation empty —
no observation is appended for a skipped step. -/
theorem claim_c3_counterexample_skipped_step :
    execSteps (fun _ => true) (fun _ => "CTX".toList)
        [⟨"shell input tap".toList, none⟩] ⟨[], [], 0⟩
      = (⟨[], [], 0⟩, RunStatus.completed) := by
  decide

/-- Claim C3 (amended): a fresh observation is taken and appended to the
conversation as a new system message after every successfully executed step,
before the next step; a step skipped (empty action or rejected tap) produces
no observation and no transport call, and a step whose transport call fails
aborts without appending an observation. -/
theorem claim_c3_amended_observation_after_success
    (transport : List Char → Bool) (obs : Nat → List Char) :
    (∀ (s : Step) (rest : List Step) (st : ExecState), s.primary ≠ [] →
      tapMissingCoords (normalizeText (stripAdb s.primary)) = false →
      transport (normalizeText (stripAdb s.primary)) = true →
      execSteps transport obs (s :: rest) st =
        execSteps transport obs rest
          ⟨st.conv ++ [ctxMsg (obs st.obsCount)],
           st.sent ++ [normalizeText (stripAdb s.primary)],
           st.obsCount + 1⟩) ∧
    (∀ (s : Step) (rest : List Step) (st : ExecState),
      s.primary = [] ∨
        tapMissingCoords (normalizeText (stripAdb s.primary)) = true →
      execSteps transport obs (s :: rest) st
        = execSteps transport obs rest st) ∧
    (∀ (s : Step) (rest : List Step) (st : ExecState), s.primary ≠ [] →
      tapMissingCoords (normalizeText (stripAdb s.primary)) = false →
      transport (normalizeText (stripAdb s.primary)) = false →
      (execSteps transport obs (s :: rest) st).1.conv = st.conv) := by
  refine ⟨fun s rest st h1 h2 h3 =>
    execSteps_exec_success transport obs s rest st h1 h2 h3, ?_, ?_⟩
  · intro s rest st h
    rcases h with h | h
    · exact execSteps_skip_empty transport obs s rest st h
    · by_cases h1 : s.primary = []
      · exact execSteps_skip_empty transport obs s rest st h1
      · exact execSteps_skip_tap transport obs s rest st h1 h
  · intro s rest st h1 h2 h3
    rw [execSteps_exec_fail transport obs s rest st h1 h2 h3]

theorem claim_c3_amended_witness :
    execSteps (fun _ => true) (fun _ => "CTX".toList)
        [⟨"shell input tap 5 6".toList, none⟩] ⟨[], [], 0⟩
      = execSteps (fun _ => true) (fun _ => "CTX".toList) []
          ⟨[ctxMsg ("CTX".toList)], ["shell input tap 5 6".toList], 1⟩ := by
  have h := (claim_c3_amended_observation_after_success
      (fun _ => true) (fun _ => "CTX".toList)).1
    ⟨"shell input tap 5 6".toList, none⟩ [] ⟨[], [], 0⟩
    (by decide) (by decide) rfl
  rw [h]
  rfl

/-- Claim C4: a transport failure on a step aborts the run immediately: the
failed step's command is sent exactly once (no retry), no later step of the
plan reaches the transport, the conversation gains no further message, and
the loop itself ends with `aborted`. -/
theorem claim_c4_transport_failure_aborts (transport : List Char → Bool)
    (obs : Nat → List Char) :
    (∀ (s : Step) (rest : List Step) (st : ExecState), s.primary ≠ [] →
      tapMissingCoords (normalizeText (stripAdb s.primary)) = false →
      transport (normalizeText (stripAdb s.primary)) = false →
      execSteps transport obs (s :: rest) st =
        (⟨st.conv, st.sent ++ [normalizeText (stripAdb s.primary)],
          st.obsCount⟩, RunStatus.aborted)) ∧
    (∀ (planner : List Message → List Char) (fuel : Nat)
        (st st3 : ExecState),
      jsToUpper (jsTrim (planner (st.conv ++ [ctxMsg (obs st.obsCount)])))
        ≠ "DONE".toList →
      execSteps transport obs
          (parsePlan (jsTrim (planner (st.conv ++ [ctxMsg (obs st.obsCount)]))))
          ⟨st.conv ++ [ctxMsg (obs st.obsCount)] ++
              [⟨Role.assistant,
                jsTrim (planner (st.conv ++ [ctxMsg (obs st.obsCount)]))⟩],
            st.sent, st.obsCount + 1⟩ = (st3, RunStatus.aborted) →
      runLoop planner transport obs (fuel + 1) st
        = (st3, LoopResult.aborted)) := by
  refine ⟨fun s rest st h1 h2 h3 =>
    execSteps_exec_fail transport obs s rest st h1 h2 h3, ?_⟩
  intro planner fuel st st3 hdone hexec
  rw [runLoop_exec_turn planner transport obs fuel st st3
    RunStatus.aborted hdone hexec]

theorem claim_c4_transport_failure_aborts_witness :
    execSteps (fun _ => false) (fun _ => [])
        [⟨"shell input swipe 1 2 3 4".toList, none⟩,
         ⟨"shell input keyevent 4".toList, none⟩] ⟨[], [], 0⟩
      = (⟨[], ["shell input swipe 1 2 3 4".toList], 0⟩,
          RunStatus.aborted) := by
  have h := (claim_c4_transport_failure_aborts
      (fun _ => false) (fun _ => [])).1
    ⟨"shell input swipe 1 2 3 4".toList, none⟩
    [⟨"shell input keyevent 4".toList, none⟩] ⟨[], [], 0⟩
    (by decide) (by decide) rfl
  rw [h]
  rfl

/-- Claim C5: when the entire trimmed planner reply equals the terminal
keyword `DONE` in any letter case (stated pointwise via `eqIgnoreCase`), the
loop turn ends in `terminated`: the conversation gains exactly the context
message and the assistant reply, no command is sent to the transport, and
neither the plan parser's output nor the step executor contributes to the
result. -/
theorem claim_c5_done_reply_terminates (planner : List Message → List Char)
    (transport : List Char → Bool) (obs : Nat → List Char)
    (fuel : Nat) (st : ExecState)
    (h : eqIgnoreCase
      (jsTrim (planner (st.conv ++ [ctxMsg (obs st.obsCount)])))
      ("DONE".toList) = true) :
    runLoop planner transport obs (fuel + 1) st =
      (⟨st.conv ++ [ctxMsg (obs st.obsCount)] ++
          [⟨Role.assistant,
            jsTrim (planner (st.conv ++ [ctxMsg (obs st.obsCount)]))⟩],
        st.sent, st.obsCount + 1⟩, LoopResult.terminated) :=
  runLoop_done_turn planner transport obs fuel st
    (eqIgnoreCase_toUpper _ _ (by decide) h)

theorem claim_c5_done_reply_terminates_witness :
    runLoop (fun _ => " Done ".toList) (fun _ => true) (fun _ => [])
        1 ⟨[], [], 0⟩ =
      (⟨[ctxMsg [], ⟨Role.assistant, "Done".toList⟩], [], 1⟩,
        LoopResult.terminated) :=
  claim_c5_done_reply_terminates (fun _ => " Done ".toList) (fun _ => true)
    (fun _ => []) 0 ⟨[], [], 0⟩ (by decide)

/-- Claim C6: the plan parser returns the steps in the order of their
`Command:` lines: the actions of the parsed steps are exactly the trimmed
remainders of the command-marker lines in their order of appearance in the
text (on top of the action of any step already under construction); a
`Sleep:` line with an open step sets that step's delay to its parsed integer
value times 1000 and is ignored when no step is open; a still-open step at
end of input is appended. -/
theorem claim_c6_plan_parser_order :
    (∀ (lines : List (List Char)) (cur : Option Step),
      (parseLines lines cur).map Step.primary
        = pendingActions cur ++ commandActions lines) ∧
    (∀ (line : List Char) (rest : List (List Char)) (s : Step),
      "Sleep:".toList.isPrefixOf (jsTrim line) = true →
      parseLines (line :: rest) (some s) = parseLines rest
        (some ⟨s.primary,
          (parseIntJs (jsTrim ((jsTrim line).drop 6))).map
            (fun n => n * 1000)⟩) ∧
      parseLines (line :: rest) none = parseLines rest none) ∧
    (∀ s : Step, parseLines [] (some s) = [s]) :=
  ⟨parseLines_primary,
   fun line rest s h =>
    ⟨parseLines_sleep_open line rest s h,
     parseLines_sleep_closed line rest h⟩,
   fun _ => rfl⟩

theorem claim_c6_plan_parser_order_witness :
    (parsePlan ("Command: shell input tap 100 200\nSleep: 2".toList)).map
        Step.primary
      = commandActions (jsSplit lfChar
          ("Command: shell input tap 100 200\nSleep: 2".toList)) ∧
    parseLines ["Sleep: 2".toList]
        (some ⟨"shell input tap 100 200".toList, none⟩)
      = [⟨"shell input tap 100 200".toList, some 2000⟩] := by
  constructor
  · have h := claim_c6_plan_parser_order.1
      (jsSplit lfChar ("Command: shell input tap 100 200\nSleep: 2".toList))
      none
    exact h
  · have h := (claim_c6_plan_parser_order.2.1 ("Sleep: 2".toList) []
      ⟨"shell input tap 100 200".toList, none⟩ (by decide)).1
    rw [h]
    decide

/-- Claim C7: for a text-input action, normalization rebuilds the action with
every literal space of the payload (everything after the third
space-separated token) replaced by the escape token `%s`: the escaped payload
contains no space, the transformation on the documented example replaces each
space exactly once, and the whole normalization is idempotent — applying it
again to an already-normalized action changes nothing. -/
theorem claim_c7_text_escaping :
    (∀ payload : List Char,
      normalizeText ("shell input text ".toList ++ payload)
        = "shell input text ".toList ++ escapeSpaces payload) ∧
    (∀ s : List Char, spChar ∉ escapeSpaces s) ∧
    escapeSpaces ("open app".toList) = "open%sapp".toList ∧
    (∀ p : List Char, normalizeText (normalizeText p) = normalizeText p) :=
  ⟨normalizeText_payload, escapeSpaces_no_space, by decide, normalizeText_idem⟩

/-- Claim C8: every failure mode of a layout fetch — dump trigger error, pull
error, missing artifact file, read error, XML parse error — makes `getUiTree`
return `none` rather than propagating the error, and an absent tree is
serialized by `getContext` as the degraded `Unknown` context rather than
aborting anything. -/
theorem claim_c8_fetch_failure_none (env : FetchEnv) :
    (∀ e, env.dump = Except.error e → getUiTree env = none) ∧
    (∀ e, env.pull = Except.error e → getUiTree env = none) ∧
    (env.artifactExists = false → getUiTree env = none) ∧
    (∀ e, env.readArtifact = Except.error e → getUiTree env = none) ∧
    (∀ xml e, env.readArtifact = Except.ok xml →
      env.parseXml xml = Except.error e → getUiTree env = none) ∧
    (getUiTree env = none → getContext env = "Unknown".toList) := by
  refine ⟨?_, ?_, ?_, ?_, ?_, ?_⟩
  · intro e h
    simp [getUiTree, h]
  · intro e h
    cases hd : env.dump with
    | error e2 => simp [getUiTree, hd]
    | ok u => simp [getUiTree, hd, h]
  · intro h
    cases hd : env.dump with
    | error e2 => simp [getUiTree, hd]
    | ok u =>
      cases hp : env.pull with
      | error e2 => simp [getUiTree, hd, hp]
      | ok u2 => simp [getUiTree, hd, hp, h]
  · intro e h
    cases hd : env.dump with
    | error e2 => simp [getUiTree, hd]
    | ok u =>
      cases hp : env.pull with
      | error e2 => simp [getUiTree, hd, hp]
      | ok u2 =>
        cases hx : env.artifactExists with
        | false => simp [getUiTree, hd, hp, hx]
        | true => simp [getUiTree, hd, hp, hx, h]
  · intro xml e h hparse
    cases hd : env.dump with
    | error e2 => simp [getUiTree, hd]
    | ok u =>
      cases hp : env.pull with
      | error e2 => simp [getUiTree, hd, hp]
      | ok u2 =>
        cases hx : env.artifactExists with
        | false => simp [getUiTree, hd, hp, hx]
        | true => simp [getUiTree, hd, hp, hx, h, hparse]
  · intro h
    simp [getContext, h]

theorem claim_c8_fetch_failure_none_witness :
    getUiTree ⟨Except.error ("adb error".toList), Except.ok (), true,
      Except.ok [], fun _ => Except.ok none⟩ = none :=
  (claim_c8_fetch_failure_none _).1 ("adb error".toList) rfl

/-- Claim C9: the conversation history is append-only: both the step
executor and the whole agent loop only ever extend the conversation at its
end — the final conversation is always the initial one plus a suffix, so no
previously appended message is edited or removed. -/
theorem claim_c9_conversation_append_only
    (planner : List Message → List Char) (transport : List Char → Bool)
    (obs : Nat → List Char) :
    (∀ (steps : List Step) (st : ExecState),
      ∃ d, (execSteps transport obs steps st).1.conv = st.conv ++ d) ∧
    (∀ (fuel : Nat) (st : ExecState),
      ∃ d, (runLoop planner transport obs fuel st).1.conv = st.conv ++ d) :=
  ⟨fun steps st => execSteps_conv_extends transport obs steps st,
   fun fuel st => runLoop_conv_extends planner transport obs fuel st⟩

/-- Claim C10: a parsed step with an empty action string — produced by a
`Command:` line with nothing after the marker — is skipped by the executor
before any processing: the execution of the remaining steps is unchanged, so
the empty step sends nothing to the transport and cannot abort the loop. -/
theorem claim_c10_empty_action_skipped (transport : List Char → Bool)
    (obs : Nat → List Char) :
    (∀ (s : Step) (rest : List Step) (st : ExecState), s.primary = [] →
      execSteps transport obs (s :: rest) st
        = execSteps transport obs rest st) ∧
    parsePlan ("Command:".toList) = [⟨[], none⟩] :=
  ⟨fun s rest st h => execSteps_skip_empty transport obs s rest st h,
   by decide⟩

theorem claim_c10_empty_action_skipped_witness :
    execSteps (fun _ => true) (fun _ => [])
        [⟨[], none⟩, ⟨"shell monkey -p com.app 1".toList, none⟩] ⟨[], [], 0⟩
      = execSteps (fun _ => true) (fun _ => [])
          [⟨"shell monkey -p com.app 1".toList, none⟩] ⟨[], [], 0⟩ :=
  (claim_c10_empty_action_skipped (fun _ => true) (fun _ => [])).1
    ⟨[], none⟩ [⟨"shell monkey -p com.app 1".toList, none⟩] ⟨[], [], 0⟩ rfl

theorem claim_c7_text_escaping_witness :
    normalizeText ("shell input text ".toList ++ "hello world".toList)
      = "shell input text ".toList ++ escapeSpaces ("hello world".toList) ∧
    spChar ∉ escapeSpaces ("a b".toList) :=
  ⟨claim_c7_text_escaping.1 ("hello world".toList),
   claim_c7_text_escaping.2.1 ("a b".toList)⟩
